import Mathlib

/-!
Shallow embedding of amgraph.py, a tool that renders the dependency graph of
Alembic-style migration files.

The pure functions of the source are translated directly.  Python exceptions
are modelled with Except; the print-to-stderr-and-exit behaviour of print_err
is modelled by an error result carrying the diagnostic line.

The development has two layers, matching the pipeline of the source:

* an extractor layer over Python literal values (PyVal), embedding
  Revision.from_ast_node, read_revisions and the validation steps of main;
* a graph layer over revision records whose identifier is a string and whose
  down_revision entries are strings or None, which is the shape every record
  produced by a successful extraction of a well-formed migration file has;
  this layer embeds Revision.identity, flatten_groups and create_graph.
-/

/-- A revision record (class Revision, amgraph.py lines 10 to 14) as consumed
by the graph layer: the identifier is a string and every down_revision entry
is a string or None.  The filename is kept as its stem, the only part of the
path that create_graph reads. -/
structure Revision where
  identifier : String
  down_revision : List (Option String)
  filenameStem : String
  labels : List String
deriving Repr, DecidableEq

/-- Python runtime errors that the graph layer can raise. -/
inductive PyErr where
  | typeError
  | indexError
deriving Repr, DecidableEq

/-- Python sorted() applied to the down_revision tuple (amgraph.py line 44).
With zero or one element no comparison happens and the tuple is returned
as given.  With two or more elements every element takes part in at least one
comparison, and in Python 3 any comparison involving None raises TypeError,
so the call raises whenever such a tuple contains a None; otherwise all
entries are strings and they are sorted lexicographically. -/
def pySortedDown : List (Option String) → Except PyErr (List (Option String))
  | [] => Except.ok []
  | [x] => Except.ok [x]
  | l =>
    if l.any Option.isNone then Except.error PyErr.typeError
    else Except.ok (((l.filterMap id).mergeSort (fun a b => decide (a ≤ b))).map some)

/-- Revision.identity (amgraph.py lines 43 and 44).  The source returns
str(hash((identifier,) + tuple(sorted(down_revision)))); equal tuples have
equal hashes within a run, so the dictionary key is modelled by the hashed
tuple itself (hash collisions between distinct tuples are not modelled). -/
def Revision.identity (r : Revision) : Except PyErr (String × List (Option String)) :=
  (pySortedDown r.down_revision).map (fun s => (r.identifier, s))

/-- Revision.is_initial (amgraph.py lines 46 and 47). -/
def Revision.is_initial (r : Revision) : Bool :=
  decide (r.down_revision = [none])

/-- Revision.is_merge (amgraph.py lines 49 and 50). -/
def Revision.is_merge (r : Revision) : Bool :=
  decide (1 < r.down_revision.length)

/-- The identity key of a revision when it is defined, none when computing it
raises TypeError. -/
def identityOk (r : Revision) : Option (String × List (Option String)) :=
  (Revision.identity r).toOption

/-- The type of identity keys used by the flattening dictionary. -/
abbrev RevKey := String × List (Option String)

/-- dict.setdefault on the insertion-ordered dictionary of flatten_groups
(amgraph.py line 91): if the key is absent the pair is appended, otherwise
the dictionary is unchanged. -/
def insertRevision (res : List (RevKey × Revision)) (k : RevKey) (r : Revision) :
    List (RevKey × Revision) :=
  if res.any (fun kr => decide (kr.1 = k)) then res else res ++ [(k, r)]

/-- Appending labels to a revision record, modelling the in-place mutation
final_rev.labels.append(...) of amgraph.py line 94. -/
def pushLabels (r : Revision) (ls : List String) : Revision :=
  { r with labels := r.labels ++ ls }

/-- Mutating the labels of the entry stored under key k (amgraph.py line 94:
the object returned by setdefault is the stored one, so the append is visible
through the dictionary). -/
def appendLabelAt (res : List (RevKey × Revision)) (k : RevKey) (lab : String) :
    List (RevKey × Revision) :=
  res.map (fun kr => if kr.1 = k then (kr.1, pushLabels kr.2 [lab]) else kr)

/-- One iteration of the inner loop of flatten_groups (amgraph.py lines
90 to 94) on the stream of (group index, revision) pairs: compute the identity
key (which can raise TypeError), setdefault, and, when dir_labels is truthy,
append dir_labels[i] to the stored record (an out-of-range index raises
IndexError, as in Python). -/
def flattenStep (dir_labels : List String) (res : List (RevKey × Revision))
    (ir : Nat × Revision) : Except PyErr (List (RevKey × Revision)) :=
  match Revision.identity ir.2 with
  | Except.error e => Except.error e
  | Except.ok k =>
    if dir_labels.isEmpty then Except.ok (insertRevision res k ir.2)
    else
      match dir_labels[ir.1]? with
      | some lab => Except.ok (appendLabelAt (insertRevision res k ir.2) k lab)
      | none => Except.error PyErr.indexError

/-- The loop of flatten_groups over the enumerated stream of revisions. -/
def flattenFold (dir_labels : List String) :
    List (RevKey × Revision) → List (Nat × Revision) →
    Except PyErr (List (RevKey × Revision))
  | res, [] => Except.ok res
  | res, ir :: rest =>
    match flattenStep dir_labels res ir with
    | Except.error e => Except.error e
    | Except.ok res1 => flattenFold dir_labels res1 rest

/-- The stream of (group index, revision) pairs visited by the nested loops
for i, revisions in enumerate(revision_groups): for revision in revisions
(amgraph.py lines 89 and 90), starting from index n. -/
def revisionStreamFrom : Nat → List (List Revision) → List (Nat × Revision)
  | _, [] => []
  | i, g :: gs => g.map (fun r => (i, r)) ++ revisionStreamFrom (i + 1) gs

/-- The stream of (group index, revision) pairs of enumerate starting at 0. -/
def revisionStream (groups : List (List Revision)) : List (Nat × Revision) :=
  revisionStreamFrom 0 groups

/-- flatten_groups (amgraph.py lines 84 to 96): fold the stream into the
insertion-ordered dictionary and return list(result.values()). -/
def flatten_groups (groups : List (List Revision)) (dir_labels : List String) :
    Except PyErr (List Revision) :=
  match flattenFold dir_labels [] (revisionStream groups) with
  | Except.error e => Except.error e
  | Except.ok res => Except.ok (res.map (fun kr => kr.2))

/-- One emitted graphviz node declaration: the attr("node", ...) values in
force when dot.node is called, together with its id and label (amgraph.py
lines 115 to 125). -/
structure NodeDecl where
  id : RevKey
  peripheries : String
  shape : String
  label : String
deriving Repr, DecidableEq

/-- The digraph assembled by create_graph, recording the graph name, whether
rankdir was set to BT (amgraph.py lines 108 to 111), and the emitted node and
edge declarations in order. -/
structure DotGraph where
  name : String
  rankdirBT : Bool
  nodes : List NodeDecl
  edges : List (RevKey × RevKey)
deriving Repr, DecidableEq

/-- The node declaration emitted for one flattened revision (amgraph.py lines
115 to 125): peripheries 2 for initial revisions else 1, shape box for merge
revisions else oval, label from the identifier or the filename stem with the
accumulated group labels joined on a second line. -/
def nodeDeclOf (short_node_labels : Bool) (r : Revision) : Except PyErr NodeDecl :=
  (Revision.identity r).map (fun k =>
    let base := if short_node_labels then r.identifier else r.filenameStem
    { id := k
      peripheries := if r.is_initial then "2" else "1"
      shape := if r.is_merge then "box" else "oval"
      label := if r.labels.isEmpty then base
               else base ++ "\n" ++ String.intercalate ", " r.labels })

/-- The node loop of create_graph (amgraph.py lines 115 to 125). -/
def nodesOf (short_node_labels : Bool) : List Revision → Except PyErr (List NodeDecl)
  | [] => Except.ok []
  | r :: rs =>
    match nodeDeclOf short_node_labels r with
    | Except.error e => Except.error e
    | Except.ok n => (nodesOf short_node_labels rs).map (fun ns => n :: ns)

/-- The innermost loop of create_graph (amgraph.py lines 132 to 140): scan the
flattened revisions and emit one edge per candidate whose identifier equals
the entry, from revision to candidate, swapped when reverse is set. -/
def edgesForEntry (reverse : Bool) (r : Revision) (entry : Option String) :
    List Revision → Except PyErr (List (RevKey × RevKey))
  | [] => Except.ok []
  | c :: cs =>
    if some c.identifier = entry then
      match Revision.identity r, Revision.identity c with
      | Except.ok rk, Except.ok ck =>
        (edgesForEntry reverse r entry cs).map
          (fun es => (if reverse then (ck, rk) else (rk, ck)) :: es)
      | Except.error e, _ => Except.error e
      | _, Except.error e => Except.error e
    else edgesForEntry reverse r entry cs

/-- The loop of create_graph over the down_revision entries of one revision
(amgraph.py line 131). -/
def edgesForEntries (reverse : Bool) (revisions : List Revision) (r : Revision) :
    List (Option String) → Except PyErr (List (RevKey × RevKey))
  | [] => Except.ok []
  | entry :: rest =>
    match edgesForEntry reverse r entry revisions with
    | Except.error e => Except.error e
    | Except.ok es => (edgesForEntries reverse revisions r rest).map (fun es2 => es ++ es2)

/-- The edges emitted for one revision (amgraph.py lines 127 to 140): initial
revisions are skipped, otherwise each down_revision entry is processed. -/
def edgesForRevision (reverse : Bool) (revisions : List Revision) (r : Revision) :
    Except PyErr (List (RevKey × RevKey)) :=
  if r.is_initial then Except.ok []
  else edgesForEntries reverse revisions r r.down_revision

/-- The outer edge loop of create_graph (amgraph.py line 127). -/
def edgesOf (reverse : Bool) (revisions : List Revision) :
    List Revision → Except PyErr (List (RevKey × RevKey))
  | [] => Except.ok []
  | r :: rs =>
    match edgesForRevision reverse revisions r with
    | Except.error e => Except.error e
    | Except.ok es => (edgesOf reverse revisions rs).map (fun es2 => es ++ es2)

/-- create_graph (amgraph.py lines 99 to 142): set rankdir BT when reverse,
flatten the groups, emit the node declarations and then the edges. -/
def create_graph (name : String) (revision_groups : List (List Revision))
    (dir_labels : List String) (short_node_labels : Bool) (reverse : Bool) :
    Except PyErr DotGraph :=
  match flatten_groups revision_groups dir_labels with
  | Except.error e => Except.error e
  | Except.ok revisions =>
    match nodesOf short_node_labels revisions with
    | Except.error e => Except.error e
    | Except.ok nodes =>
      match edgesOf reverse revisions revisions with
      | Except.error e => Except.error e
      | Except.ok edges =>
        Except.ok { name := name, rankdirBT := reverse, nodes := nodes, edges := edges }

/-- Python literal values, the results ast.literal_eval can produce for the
literals a migration file assigns to revision or down_revision. -/
inductive PyVal where
  | noneV : PyVal
  | str : String → PyVal
  | int : Int → PyVal
  | bool : Bool → PyVal
  | tuple : List PyVal → PyVal
  | list : List PyVal → PyVal
deriving Repr

/-- Python truthiness of a literal value, as tested by not identifier
(amgraph.py line 35). -/
def PyVal.truthy : PyVal → Bool
  | PyVal.noneV => false
  | PyVal.str s => !s.isEmpty
  | PyVal.int n => decide (n ≠ 0)
  | PyVal.bool b => b
  | PyVal.tuple l => !l.isEmpty
  | PyVal.list l => !l.isEmpty

/-- The right-hand side expression of an assignment: either an expression
that ast.literal_eval accepts, or anything else, on which literal_eval
raises ValueError. -/
inductive PyExpr where
  | lit : PyVal → PyExpr
  | nonLiteral : PyExpr
deriving Repr

/-- One assignment target: an ast.Name node carrying an id, or any other
target node (tuple unpacking, attribute, subscript, ...), whose id attribute
access raises AttributeError (amgraph.py line 28). -/
inductive PyTarget where
  | name : String → PyTarget
  | composite : PyTarget
deriving Repr

/-- One top-level statement of the parsed module, as seen by
ast.iter_child_nodes: an ast.Assign with its targets and value, or any
other node, which is skipped (amgraph.py lines 21 to 23). -/
inductive PyStmt where
  | assign : List PyTarget → PyExpr → PyStmt
  | nonAssign : PyStmt
deriving Repr

/-- The exceptions Revision.from_ast_node can raise, the ones read_revisions
catches (amgraph.py line 76). -/
inductive ExtractErr where
  | valueError : String → ExtractErr
  | attributeError : ExtractErr
deriving Repr, DecidableEq

/-- ast.literal_eval (amgraph.py lines 31 and 33): returns the literal value
or raises ValueError on anything that is not a literal. -/
def literal_eval : PyExpr → Except ExtractErr PyVal
  | PyExpr.lit v => Except.ok v
  | PyExpr.nonLiteral => Except.error (ExtractErr.valueError "malformed node or string")

/-- The scan loop of Revision.from_ast_node (amgraph.py lines 21 to 33):
walk the statements keeping the latest literal values assigned to revision
and to down_revision.  Non-assignments and assignments with other than one
target are skipped; an assignment whose single target is not a plain name
raises AttributeError; a non-literal value assigned to revision or
down_revision raises ValueError. -/
def scanAssigns : List PyStmt → Option PyVal → Option PyVal →
    Except ExtractErr (Option PyVal × Option PyVal)
  | [], idv, downv => Except.ok (idv, downv)
  | PyStmt.nonAssign :: rest, idv, downv => scanAssigns rest idv downv
  | PyStmt.assign [PyTarget.name n] v :: rest, idv, downv =>
    if n = "revision" then
      match literal_eval v with
      | Except.error e => Except.error e
      | Except.ok pv => scanAssigns rest (some pv) downv
    else if n = "down_revision" then
      match literal_eval v with
      | Except.error e => Except.error e
      | Except.ok pv => scanAssigns rest idv (some pv)
    else scanAssigns rest idv downv
  | PyStmt.assign [PyTarget.composite] _ :: _, _, _ =>
    Except.error ExtractErr.attributeError
  | PyStmt.assign _ _ :: rest, idv, downv => scanAssigns rest idv downv

/-- Normalisation of the down_revision value (amgraph.py lines 38 and 39):
a tuple literal is kept as is, any other value, including None for an absent
declaration and including a Python list literal, is wrapped in a one-entry
tuple. -/
def normalizeDown : PyVal → List PyVal
  | PyVal.tuple l => l
  | v => [v]

/-- The revision record as produced by extraction, before any assumption on
the shape of its literals: the identifier is whatever truthy literal the
file assigned, and down_revision is a tuple of arbitrary literals. -/
structure ExtractedRevision where
  identifier : PyVal
  down_revision : List PyVal
  filename : String
  labels : List String
deriving Repr

/-- Revision.from_ast_node (amgraph.py lines 16 to 41): scan the assignments,
fail with ValueError when no truthy revision literal was found, then
normalise down_revision and build the record with an empty label list. -/
def from_ast_node (stmts : List PyStmt) (filename : String) :
    Except ExtractErr ExtractedRevision :=
  match scanAssigns stmts none none with
  | Except.error e => Except.error e
  | Except.ok (idv, downv) =>
    match idv with
    | none => Except.error (ExtractErr.valueError "Unable to find revision identifier.")
    | some v =>
      if v.truthy then
        Except.ok ⟨v, normalizeDown (downv.getD PyVal.noneV), filename, []⟩
      else Except.error (ExtractErr.valueError "Unable to find revision identifier.")

/-- One directory entry as seen by versions.iterdir(): its final name
component, whether it is a regular file, and the statements of its parsed
source (syntactically valid Python is assumed, since ast.parse failures are
outside the modelled error handling). -/
structure DirEntry where
  name : String
  isFile : Bool
  stmts : List PyStmt
deriving Repr

/-- str.endswith, tested on the final path component (the endswith call of
amgraph.py line 64 runs on the whole path, whose trailing characters are
those of the entry name). -/
def strEndsWith (s pat : String) : Bool :=
  pat.toList.isSuffixOf s.toList

/-- The eligibility filter of read_revisions (amgraph.py lines 62 to 69):
regular files ending in .py other than the package marker. -/
def eligible (e : DirEntry) : Bool :=
  e.isFile && strEndsWith e.name ".py" && e.name != "__init__.py"

/-- str(e) for the caught exception, as interpolated into the diagnostic of
read_revisions.  The AttributeError text stands for the message Python
produces for a missing id attribute. -/
def extractErrStr : ExtractErr → String
  | ExtractErr.valueError msg => msg
  | ExtractErr.attributeError => "object has no attribute id"

/-- The diagnostic line printed by read_revisions before exiting
(amgraph.py line 77). -/
def readFileDiag (filename : String) (e : ExtractErr) : String :=
  "Unable to read file " ++ filename ++ ": " ++ extractErrStr e

/-- read_revisions (amgraph.py lines 58 to 81): extract every eligible entry
in enumeration order; on the first ValueError or AttributeError, print_err
reports the file and the reason and exits, modelled by an error carrying the
diagnostic line. -/
def read_revisions : List DirEntry → Except String (List ExtractedRevision)
  | [] => Except.ok []
  | e :: rest =>
    if eligible e then
      match from_ast_node e.stmts e.name with
      | Except.error err => Except.error (readFileDiag e.name err)
      | Except.ok r => (read_revisions rest).map (fun rs => r :: rs)
    else read_revisions rest

/-- One positional VERSIONS-DIRECTORY argument: whether the path is a
directory, and its entries when it is. -/
structure VDir where
  isDir : Bool
  entries : List DirEntry
deriving Repr

/-- The parsed command line of amgraph.py (read_args, lines 145 to 157).
dir_labels is [] when the option was not supplied, since argparse leaves it
None and main only tests its truthiness and length. -/
structure Args where
  version_dirs : List VDir
  dir_labels : List String
  output : String
  short_node_labels : Bool
  reverse : Bool

/-- The last path component, as pathlib computes name. -/
def lastComponent (cs : List Char) : List Char :=
  ((cs.reverse.takeWhile (fun c => c != Char.ofNat 47)).reverse)

/-- pathlib suffix of the output path: the extension of the final component,
empty when the name has no dot after its first character or ends in one. -/
def pathSuffix (p : String) : String :=
  let nm := lastComponent p.toList
  let revIdx := nm.reverse.findIdx (fun c => c == Char.ofNat 46)
  if revIdx < nm.length then
    let i := nm.length - 1 - revIdx
    if 0 < i ∧ i < nm.length - 1 then String.mk (nm.drop i) else ""
  else ""

/-- How a run of main can stop before rendering: print_err writes one
diagnostic line to stderr and exits with status 1, or an uncaught
AttributeError escapes main and Python prints a traceback (also exiting with
a non-zero status, but without the intended diagnostic). -/
inductive MainStop where
  | errExitLine : String → MainStop
  | attributeCrash : MainStop
deriving Repr, DecidableEq

/-- The diagnostic of the dir-labels count guard (amgraph.py lines 166
to 169). -/
def labelMismatchMsg (nwant ngot : Nat) : String :=
  "Error: You must provide exactly one directory label for each version " ++
    "directory (want: " ++ toString nwant ++ ", got: " ++ toString ngot ++ ")."

/-- The loop of main over the version directories (amgraph.py lines 174
to 178).  When a path is not a directory, main builds the diagnostic with the
f-string referencing args.versions, an attribute the namespace does not have,
so the run stops with an uncaught AttributeError instead of the intended
print_err line. -/
def loadDirs : List VDir → Except MainStop (List (List ExtractedRevision))
  | [] => Except.ok []
  | d :: ds =>
    if d.isDir then
      match read_revisions d.entries with
      | Except.error line => Except.error (MainStop.errExitLine line)
      | Except.ok revs => (loadDirs ds).map (fun gs => revs :: gs)
    else Except.error MainStop.attributeCrash

/-- main up to the construction of revision_groups (amgraph.py lines 160 to
178): the dir-labels count guard, the output extension guard, then the
directory loop.  The subsequent create_graph and render calls consume the
returned groups. -/
def mainLoad (a : Args) : Except MainStop (List (List ExtractedRevision)) :=
  if a.dir_labels ≠ [] ∧ a.dir_labels.length ≠ a.version_dirs.length then
    Except.error (MainStop.errExitLine
      (labelMismatchMsg a.version_dirs.length a.dir_labels.length))
  else if (pathSuffix a.output).isEmpty then
    Except.error (MainStop.errExitLine
      "Error: Output file path must contain an extension (e.g. \x27.png\x27).")
  else loadDirs a.version_dirs

/-- Lookup in the flattening dictionary. -/
def keyFind (res : List (RevKey × Revision)) (k : RevKey) : Option (RevKey × Revision) :=
  res.find? (fun kr => decide (kr.1 = k))

/-- The label list dir_labels[i] contributes for one processed revision:
nothing when dir_labels is empty (falsy in Python), the indexed label
otherwise (when the index is in range). -/
def labelOfIdx (dir_labels : List String) (i : Nat) : List String :=
  if dir_labels.isEmpty then [] else (dir_labels[i]?).toList

/-- The labels accumulated on the record stored under key k over a stream of
(group index, revision) pairs: one copy of the group label per occurrence of
the key in the stream, in stream order. -/
def contrib (dir_labels : List String) (pairs : List (Nat × Revision)) (k : RevKey) :
    List String :=
  pairs.flatMap (fun ir =>
    if identityOk ir.2 = some k then labelOfIdx dir_labels ir.1 else [])

/-- Whether extraction of a parsed file raises one of the caught errors. -/
def extractionFails (e : DirEntry) : Bool :=
  match from_ast_node e.stmts e.name with
  | Except.error _ => true
  | Except.ok _ => false

/-!  Theorems.  General lemmas about the embedded operations come first, the
claim theorems follow. -/

theorem pushLabels_nil (r : Revision) : pushLabels r [] = r := by
  simp [pushLabels]

theorem pushLabels_pushLabels (r : Revision) (ls1 ls2 : List String) :
    pushLabels (pushLabels r ls1) ls2 = pushLabels r (ls1 ++ ls2) := by
  simp [pushLabels]

theorem identity_pushLabels (r : Revision) (ls : List String) :
    Revision.identity (pushLabels r ls) = Revision.identity r := rfl

theorem nodeDeclOf_ok (s : Bool) (r : Revision) (n : NodeDecl)
    (h : nodeDeclOf s r = Except.ok n) :
    n.peripheries = (if r.is_initial then "2" else "1") ∧
    n.shape = (if r.is_merge then "box" else "oval") ∧
    Revision.identity r = Except.ok n.id := by
  cases hid : Revision.identity r with
  | error e =>
    unfold nodeDeclOf at h
    rw [hid] at h
    cases h
  | ok k =>
    unfold nodeDeclOf at h
    rw [hid] at h
    simp [Except.map] at h
    subst h
    exact ⟨rfl, rfl, rfl⟩

theorem nodesOf_mem (s : Bool) (revs : List Revision) (ns : List NodeDecl)
    (h : nodesOf s revs = Except.ok ns) :
    ∀ r ∈ revs, ∃ n ∈ ns, nodeDeclOf s r = Except.ok n := by
  induction revs generalizing ns with
  | nil =>
    intro r hr
    exact absurd hr (List.not_mem_nil r)
  | cons r0 rs ih =>
    intro r hr
    unfold nodesOf at h
    cases h0 : nodeDeclOf s r0 with
    | error e => rw [h0] at h; cases h
    | ok n0 =>
      rw [h0] at h
      cases hrest : nodesOf s rs with
      | error e => rw [hrest] at h; cases h
      | ok ns0 =>
        rw [hrest] at h
        simp [Except.map] at h
        subst h
        rcases List.mem_cons.mp hr with h1 | h1
        · exact ⟨n0, List.mem_cons_self n0 ns0, h1 ▸ h0⟩
        · obtain ⟨n, hn, he⟩ := ih ns0 hrest r h1
          exact ⟨n, List.mem_cons_of_mem n0 hn, he⟩

/-- C2.  For every flattened revision, the node rendered by create_graph
encodes its classification exactly: down_revision equal to (None,) gives a
double border (peripheries 2), more than one down_revision entry gives a box
shape, and every other revision gets an oval shape with a single border. -/
theorem node_style_classification (gname : String) (groups : List (List Revision))
    (dl : List String) (s rev : Bool) (g : DotGraph) (revs : List Revision) (r : Revision)
    (hg : create_graph gname groups dl s rev = Except.ok g)
    (hrevs : flatten_groups groups dl = Except.ok revs)
    (hr : r ∈ revs) :
    ∃ n ∈ g.nodes,
      identityOk r = some n.id ∧
      (r.down_revision = [none] → n.peripheries = "2") ∧
      (1 < r.down_revision.length → n.shape = "box") ∧
      (r.down_revision ≠ [none] → ¬ 1 < r.down_revision.length →
        n.shape = "oval" ∧ n.peripheries = "1") := by
  unfold create_graph at hg
  split at hg
  · cases hg
  · rename_i revisions heq
    rw [hrevs] at heq
    injection heq with heq2
    subst heq2
    split at hg
    · cases hg
    · rename_i nodes hn
      split at hg
      · cases hg
      · rename_i edges he
        cases hg
        obtain ⟨n, hmem, hok⟩ := nodesOf_mem s revs nodes hn r hr
        obtain ⟨hp, hs, hid⟩ := nodeDeclOf_ok s r n hok
        refine ⟨n, hmem, ?_, ?_, ?_, ?_⟩
        · simp [identityOk, hid, Except.toOption]
        · intro h1
          rw [hp, if_pos]
          simp [Revision.is_initial, h1]
        · intro h1
          rw [hs, if_pos]
          simp [Revision.is_merge, h1]
        · intro h1 h2
          constructor
          · rw [hs, if_neg]
            simp [Revision.is_merge, h2]
          · rw [hp, if_neg]
            simp [Revision.is_initial, h1]

/-- C2 witness: a one-revision run, evaluated. -/
theorem node_style_classification_witness :
    create_graph "g" [[⟨"i", [none], "f", []⟩]] [] false false =
      Except.ok ⟨"g", false, [⟨("i", [none]), "2", "oval", "f"⟩], []⟩ ∧
    flatten_groups [[⟨"i", [none], "f", []⟩]] [] = Except.ok [⟨"i", [none], "f", []⟩] ∧
    ∃ n ∈ (⟨"g", false, [⟨("i", [none]), "2", "oval", "f"⟩], []⟩ : DotGraph).nodes,
      identityOk ⟨"i", [none], "f", []⟩ = some n.id ∧
      (([none] : List (Option String)) = [none] → n.peripheries = "2") ∧
      (1 < ([none] : List (Option String)).length → n.shape = "box") ∧
      (([none] : List (Option String)) ≠ [none] → ¬ 1 < ([none] : List (Option String)).length →
        n.shape = "oval" ∧ n.peripheries = "1") :=
  ⟨rfl, rfl,
    node_style_classification "g" [[⟨"i", [none], "f", []⟩]] [] false false
      ⟨"g", false, [⟨("i", [none]), "2", "oval", "f"⟩], []⟩ [⟨"i", [none], "f", []⟩]
      ⟨"i", [none], "f", []⟩ rfl rfl (List.mem_singleton.mpr rfl)⟩

/-- C7.  When directory labels are supplied and their count differs from the
count of version directories, main fails with the count-mismatch diagnostic
and a non-zero exit.  The statement holds for every Args value, in particular
for arbitrary directory contents, so the failure precedes any file access:
the result does not depend on the version_dirs entries. -/
theorem label_count_mismatch_guard (a : Args)
    (h1 : a.dir_labels ≠ []) (h2 : a.dir_labels.length ≠ a.version_dirs.length) :
    mainLoad a = Except.error (MainStop.errExitLine
      (labelMismatchMsg a.version_dirs.length a.dir_labels.length)) := by
  unfold mainLoad
  rw [if_pos ⟨h1, h2⟩]

/-- C7 witness: two directories (one of them not even a directory, nothing of
either is read) and one label. -/
theorem label_count_mismatch_guard_witness :
    (["l1"] : List String) ≠ [] ∧
    (["l1"] : List String).length ≠ ([⟨true, []⟩, ⟨false, []⟩] : List VDir).length ∧
    mainLoad ⟨[⟨true, []⟩, ⟨false, []⟩], ["l1"], "output.png", false, false⟩ =
      Except.error (MainStop.errExitLine (labelMismatchMsg 2 1)) :=
  ⟨by simp, by simp, label_count_mismatch_guard _ (by simp) (by simp)⟩

/-- C8 (code bug).  When a positional path is not a directory, main builds
the diagnostic from args.versions, an attribute the argparse namespace does
not define, so the run stops with an uncaught AttributeError traceback
instead of printing the intended single diagnostic line: the result is never
an errExitLine for any line. -/
theorem not_a_directory_attribute_error :
    mainLoad ⟨[⟨false, []⟩], [], "output.png", false, false⟩ =
      Except.error MainStop.attributeCrash ∧
    ∀ line, (Except.error MainStop.attributeCrash :
        Except MainStop (List (List ExtractedRevision))) ≠
      Except.error (MainStop.errExitLine line) := by
  refine ⟨rfl, ?_⟩
  intro line h
  simp at h

/-- C4 counterexample.  A down_revision bound to the literal list of strings
x and y is a literal sequence, but the extractor keeps only tuples as-is
(isinstance check, amgraph.py line 38): the list is wrapped as the single
entry of a one-entry tuple instead of becoming one entry per element. -/
theorem down_revision_list_literal_cex :
    from_ast_node
      [PyStmt.assign [PyTarget.name "revision"] (PyExpr.lit (PyVal.str "a")),
       PyStmt.assign [PyTarget.name "down_revision"]
         (PyExpr.lit (PyVal.list [PyVal.str "x", PyVal.str "y"]))] "m.py" =
      Except.ok ⟨PyVal.str "a", [PyVal.list [PyVal.str "x", PyVal.str "y"]], "m.py", []⟩ ∧
    ([PyVal.list [PyVal.str "x", PyVal.str "y"]] : List PyVal) ≠
      [PyVal.str "x", PyVal.str "y"] :=
  ⟨rfl, by simp⟩

/-- C4 as amended.  The extractor normalises the down revision value to a
tuple as follows: an absent value becomes (None,), a tuple literal is kept
as-is, and any other literal, a scalar but also a list literal, becomes a
one-entry tuple containing that literal. -/
theorem down_revision_normalization (stmts : List PyStmt) (fn : String)
    (idv : PyVal) (downv : Option PyVal)
    (hscan : scanAssigns stmts none none = Except.ok (some idv, downv))
    (htruthy : idv.truthy = true) :
    from_ast_node stmts fn =
      Except.ok ⟨idv, normalizeDown (downv.getD PyVal.noneV), fn, []⟩ ∧
    normalizeDown PyVal.noneV = [PyVal.noneV] ∧
    (∀ s, normalizeDown (PyVal.str s) = [PyVal.str s]) ∧
    (∀ l, normalizeDown (PyVal.tuple l) = l) ∧
    (∀ l, normalizeDown (PyVal.list l) = [PyVal.list l]) := by
  refine ⟨?_, rfl, fun s => rfl, fun l => rfl, fun l => rfl⟩
  unfold from_ast_node
  rw [hscan]
  simp [htruthy]

/-- C4 witness: a file declaring only a revision identifier, whose absent
down revision becomes (None,). -/
theorem down_revision_normalization_witness :
    scanAssigns [PyStmt.assign [PyTarget.name "revision"] (PyExpr.lit (PyVal.str "a"))]
      none none = Except.ok (some (PyVal.str "a"), none) ∧
    (PyVal.str "a").truthy = true ∧
    from_ast_node [PyStmt.assign [PyTarget.name "revision"] (PyExpr.lit (PyVal.str "a"))]
      "m.py" = Except.ok ⟨PyVal.str "a", [PyVal.noneV], "m.py", []⟩ :=
  ⟨rfl, rfl,
    (down_revision_normalization
      [PyStmt.assign [PyTarget.name "revision"] (PyExpr.lit (PyVal.str "a"))]
      "m.py" (PyVal.str "a") none rfl rfl).1⟩

/-- C9 counterexample.  An assignment whose single target is not a plain
name (tuple unpacking, an attribute, ...) is not skipped: reading its id
raises AttributeError and extraction aborts, even though the same file
without that statement extracts fine. -/
theorem composite_target_not_skipped_cex :
    from_ast_node
      [PyStmt.assign [PyTarget.composite] (PyExpr.lit PyVal.noneV),
       PyStmt.assign [PyTarget.name "revision"] (PyExpr.lit (PyVal.str "a"))] "m.py" =
      Except.error ExtractErr.attributeError ∧
    from_ast_node
      [PyStmt.assign [PyTarget.name "revision"] (PyExpr.lit (PyVal.str "a"))] "m.py" =
      Except.ok ⟨PyVal.str "a", [PyVal.noneV], "m.py", []⟩ :=
  ⟨rfl, rfl⟩

/-- C9 as amended.  The scan honours only simple single-target assignments:
a declaration binding several target names at once (a = b = value), a
non-assignment statement, and an assignment to an unrelated name are all
skipped without error; but an assignment whose single target is not a plain
name raises AttributeError and aborts extraction of the file. -/
theorem assignment_skipping_rules (ts : List PyTarget) (v : PyExpr) (rest : List PyStmt)
    (a b : Option PyVal) (hlen : ts.length ≠ 1) :
    scanAssigns (PyStmt.assign ts v :: rest) a b = scanAssigns rest a b ∧
    scanAssigns (PyStmt.nonAssign :: rest) a b = scanAssigns rest a b ∧
    (∀ n v2, n ≠ "revision" → n ≠ "down_revision" →
      scanAssigns (PyStmt.assign [PyTarget.name n] v2 :: rest) a b =
        scanAssigns rest a b) ∧
    (∀ v2, scanAssigns (PyStmt.assign [PyTarget.composite] v2 :: rest) a b =
      Except.error ExtractErr.attributeError) := by
  refine ⟨?_, rfl, ?_, fun v2 => rfl⟩
  · match ts, hlen with
    | [], _ => rfl
    | t1 :: t2 :: tl, _ => cases t1 <;> rfl
    | [t], h => exact absurd rfl h
  · intro n v2 h1 h2
    simp only [scanAssigns]
    rw [if_neg h1, if_neg h2]

/-- C9 witness: the a = b = value shape from the claim, skipped. -/
theorem assignment_skipping_rules_witness :
    ([PyTarget.name "a", PyTarget.name "b"] : List PyTarget).length ≠ 1 ∧
    scanAssigns [PyStmt.assign [PyTarget.name "a", PyTarget.name "b"]
      (PyExpr.lit (PyVal.str "v"))] none none = Except.ok (none, none) :=
  ⟨by decide,
    (assignment_skipping_rules [PyTarget.name "a", PyTarget.name "b"]
      (PyExpr.lit (PyVal.str "v")) [] none none (by decide)).1⟩

theorem pySortedDown_error_of_mixed (l : List (Option String)) (s : String)
    (h1 : none ∈ l) (h2 : some s ∈ l) :
    pySortedDown l = Except.error PyErr.typeError := by
  match l, h1, h2 with
  | [], h1, _ => exact absurd h1 (List.not_mem_nil none)
  | [x], h1, h2 =>
    rw [List.mem_singleton] at h1 h2
    rw [← h1] at h2
    cases h2
  | a :: b :: tl, h1, h2 =>
    show (if (a :: b :: tl).any Option.isNone then Except.error PyErr.typeError
      else Except.ok (((( a :: b :: tl).filterMap id).mergeSort
        (fun a b => decide (a ≤ b))).map some)) = Except.error PyErr.typeError
    rw [if_pos]
    exact List.any_eq_true.mpr ⟨none, h1, rfl⟩

theorem pySortedDown_ok_shape (l : List (Option String))
    (h : ∃ out, pySortedDown l = Except.ok out) :
    (∀ x ∈ l, x.isSome = true) ∨ l = [none] := by
  match l, h with
  | [], _ =>
    left
    intro x hx
    exact absurd hx (List.not_mem_nil x)
  | [x], _ =>
    cases x with
    | none => right; rfl
    | some s =>
      left
      intro y hy
      rw [List.mem_singleton] at hy
      rw [hy]
      rfl
  | a :: b :: tl, h =>
    obtain ⟨out, hout⟩ := h
    left
    by_cases hany : (a :: b :: tl).any Option.isNone = true
    · exfalso
      rw [show pySortedDown (a :: b :: tl) = Except.error PyErr.typeError by
        show (if (a :: b :: tl).any Option.isNone then Except.error PyErr.typeError
          else Except.ok ((((a :: b :: tl).filterMap id).mergeSort
            (fun a b => decide (a ≤ b))).map some)) = Except.error PyErr.typeError
        rw [if_pos hany]] at hout
      cases hout
    · intro x hx
      rw [Bool.not_eq_true, List.any_eq_false] at hany
      have := hany x hx
      cases x with
      | none => exact absurd rfl this
      | some s => rfl

theorem flattenFold_ok_identity (dl : List String) (pairs : List (Nat × Revision))
    (res0 res1 : List (RevKey × Revision))
    (h : flattenFold dl res0 pairs = Except.ok res1) :
    ∀ ir ∈ pairs, ∃ k, Revision.identity ir.2 = Except.ok k := by
  induction pairs generalizing res0 with
  | nil =>
    intro ir hir
    exact absurd hir (List.not_mem_nil ir)
  | cons p ps ih =>
    intro ir hir
    unfold flattenFold at h
    cases hstep : flattenStep dl res0 p with
    | error e => rw [hstep] at h; cases h
    | ok res2 =>
      rw [hstep] at h
      rcases List.mem_cons.mp hir with h1 | h1
      · subst h1
        unfold flattenStep at hstep
        cases hid : Revision.identity ir.2 with
        | error e => rw [hid] at hstep; cases hstep
        | ok k => exact ⟨k, rfl⟩
      · exact ih res2 h ir h1

theorem mem_revisionStreamFrom (n : Nat) (groups : List (List Revision)) (r : Revision)
    (hr : r ∈ groups.flatten) : ∃ i, (i, r) ∈ revisionStreamFrom n groups := by
  induction groups generalizing n with
  | nil => simp at hr
  | cons g gs ih =>
    rw [List.flatten_cons] at hr
    rcases List.mem_append.mp hr with h1 | h1
    · exact ⟨n, List.mem_append_left _ (List.mem_map_of_mem (fun r => (n, r)) h1)⟩
    · obtain ⟨i, hi⟩ := ih (n + 1) h1
      exact ⟨i, List.mem_append_right _ hi⟩

/-- C10.  For a revision whose down_revision tuple contains both None and a
string, computing the identity raises TypeError (Python 3 cannot order None
against str), so flatten_groups and create_graph fail on every input stream
containing such a revision; and whenever identity is defined, either all
down_revision entries are strings or the tuple is exactly (None,). -/
theorem identity_mixed_none_string_type_error (r : Revision) (s : String)
    (h1 : none ∈ r.down_revision) (h2 : some s ∈ r.down_revision)
    (groups : List (List Revision)) (dl : List String) (hr : r ∈ groups.flatten) :
    Revision.identity r = Except.error PyErr.typeError ∧
    (∃ e, flatten_groups groups dl = Except.error e) ∧
    (∀ gname short rev, ∃ e, create_graph gname groups dl short rev = Except.error e) ∧
    (∀ r2 : Revision, (∃ k, Revision.identity r2 = Except.ok k) →
      (∀ x ∈ r2.down_revision, x.isSome = true) ∨ r2.down_revision = [none]) := by
  have hid : Revision.identity r = Except.error PyErr.typeError := by
    unfold Revision.identity
    rw [pySortedDown_error_of_mixed r.down_revision s h1 h2]
    rfl
  have hflat : ∃ e, flatten_groups groups dl = Except.error e := by
    cases hf : flatten_groups groups dl with
    | error e => exact ⟨e, rfl⟩
    | ok res =>
      exfalso
      unfold flatten_groups at hf
      cases hfold : flattenFold dl [] (revisionStream groups) with
      | error e => rw [hfold] at hf; cases hf
      | ok res2 =>
        obtain ⟨i, hi⟩ := mem_revisionStreamFrom 0 groups r hr
        obtain ⟨k, hk⟩ := flattenFold_ok_identity dl _ [] res2 hfold (i, r) hi
        rw [hid] at hk
        cases hk
  refine ⟨hid, hflat, ?_, ?_⟩
  · intro gname short rev
    obtain ⟨e, he⟩ := hflat
    refine ⟨e, ?_⟩
    unfold create_graph
    rw [he]
  · intro r2 hk2
    apply pySortedDown_ok_shape
    obtain ⟨k, hk⟩ := hk2
    unfold Revision.identity at hk
    cases hs : pySortedDown r2.down_revision with
    | error e => rw [hs] at hk; cases hk
    | ok out => exact ⟨out, rfl⟩

/-- C10 witness: a merge revision with one absent predecessor. -/
theorem identity_mixed_none_string_type_error_witness :
    (none ∈ ([none, some "y"] : List (Option String))) ∧
    (some "y" ∈ ([none, some "y"] : List (Option String))) ∧
    ((⟨"x", [none, some "y"], "f", []⟩ : Revision) ∈
      ([[⟨"x", [none, some "y"], "f", []⟩]] : List (List Revision)).flatten) ∧
    Revision.identity ⟨"x", [none, some "y"], "f", []⟩ = Except.error PyErr.typeError ∧
    (∃ e, flatten_groups [[⟨"x", [none, some "y"], "f", []⟩]] [] = Except.error e) := by
  have h := identity_mixed_none_string_type_error ⟨"x", [none, some "y"], "f", []⟩ "y"
    (by simp) (by simp) [[⟨"x", [none, some "y"], "f", []⟩]] [] (by simp)
  exact ⟨by simp, by simp, by simp, h.1, h.2.1⟩

theorem identityOk_eq_some (r : Revision) (k : RevKey) :
    identityOk r = some k ↔ Revision.identity r = Except.ok k := by
  unfold identityOk
  cases h : Revision.identity r <;> simp [Except.toOption]

theorem mem_insertRevision (res : List (RevKey × Revision)) (k : RevKey) (r : Revision)
    (kr : RevKey × Revision) (h : kr ∈ insertRevision res k r) :
    kr ∈ res ∨ kr = (k, r) := by
  unfold insertRevision at h
  split at h
  · exact Or.inl h
  · rcases List.mem_append.mp h with h1 | h1
    · exact Or.inl h1
    · exact Or.inr (List.mem_singleton.mp h1)

theorem mem_appendLabelAt (res : List (RevKey × Revision)) (k : RevKey) (lab : String)
    (kr : RevKey × Revision) (h : kr ∈ appendLabelAt res k lab) :
    ∃ kr0 ∈ res, kr.1 = kr0.1 ∧ (kr.2 = kr0.2 ∨ kr.2 = pushLabels kr0.2 [lab]) := by
  unfold appendLabelAt at h
  obtain ⟨kr0, h0, heq⟩ := List.mem_map.mp h
  refine ⟨kr0, h0, ?_⟩
  by_cases hk : kr0.1 = k
  · rw [if_pos hk] at heq
    rw [← heq]
    exact ⟨rfl, Or.inr rfl⟩
  · rw [if_neg hk] at heq
    rw [← heq]
    exact ⟨rfl, Or.inl rfl⟩

theorem flattenStep_ok (dl : List String) (res res2 : List (RevKey × Revision))
    (ir : Nat × Revision) (h : flattenStep dl res ir = Except.ok res2) :
    ∃ k, Revision.identity ir.2 = Except.ok k ∧
      ((dl.isEmpty = true ∧ res2 = insertRevision res k ir.2) ∨
       (dl.isEmpty = false ∧ ∃ lab, dl[ir.1]? = some lab ∧
         res2 = appendLabelAt (insertRevision res k ir.2) k lab)) := by
  unfold flattenStep at h
  cases hid : Revision.identity ir.2 with
  | error e => rw [hid] at h; cases h
  | ok k =>
    rw [hid] at h
    refine ⟨k, rfl, ?_⟩
    have h2 : (if dl.isEmpty then Except.ok (insertRevision res k ir.2)
        else match dl[ir.1]? with
          | some lab => Except.ok (appendLabelAt (insertRevision res k ir.2) k lab)
          | none => Except.error PyErr.indexError) = Except.ok res2 := h
    by_cases he : dl.isEmpty = true
    · rw [if_pos he] at h2
      injection h2 with h3
      exact Or.inl ⟨he, h3.symm⟩
    · rw [if_neg he] at h2
      cases hl : dl[ir.1]? with
      | none => rw [hl] at h2; cases h2
      | some lab =>
        rw [hl] at h2
        injection h2 with h3
        exact Or.inr ⟨Bool.not_eq_true dl.isEmpty ▸ he, lab, rfl, h3.symm⟩

theorem flattenFold_coherent (dl : List String) (pairs : List (Nat × Revision))
    (res0 res1 : List (RevKey × Revision))
    (h : flattenFold dl res0 pairs = Except.ok res1)
    (h0 : ∀ kr ∈ res0, identityOk kr.2 = some kr.1) :
    ∀ kr ∈ res1, identityOk kr.2 = some kr.1 := by
  induction pairs generalizing res0 with
  | nil =>
    unfold flattenFold at h
    injection h with h2
    subst h2
    exact h0
  | cons p ps ih =>
    unfold flattenFold at h
    cases hstep : flattenStep dl res0 p with
    | error e => rw [hstep] at h; cases h
    | ok res2 =>
      rw [hstep] at h
      refine ih res2 h ?_
      obtain ⟨k, hid, hcase⟩ := flattenStep_ok dl res0 res2 p hstep
      have hins : ∀ kr ∈ insertRevision res0 k p.2, identityOk kr.2 = some kr.1 := by
        intro kr hkr
        rcases mem_insertRevision res0 k p.2 kr hkr with h1 | h1
        · exact h0 kr h1
        · rw [h1]
          exact (identityOk_eq_some p.2 k).mpr hid
      rcases hcase with ⟨he, hres⟩ | ⟨he, lab, hl, hres⟩
      · rw [hres]
        exact hins
      · rw [hres]
        intro kr hkr
        obtain ⟨kr0, hkr0, he1, he2⟩ := mem_appendLabelAt _ _ _ kr hkr
        rcases he2 with h3 | h3
        · rw [he1, h3]
          exact hins kr0 hkr0
        · rw [he1, h3]
          unfold identityOk
          rw [identity_pushLabels]
          exact hins kr0 hkr0

theorem flatten_groups_ok_identity (groups : List (List Revision)) (dl : List String)
    (res : List Revision) (h : flatten_groups groups dl = Except.ok res) :
    ∀ c ∈ res, ∃ k, Revision.identity c = Except.ok k := by
  unfold flatten_groups at h
  cases hfold : flattenFold dl [] (revisionStream groups) with
  | error e => rw [hfold] at h; cases h
  | ok res2 =>
    rw [hfold] at h
    injection h with h2
    subst h2
    intro c hc
    obtain ⟨kr, hkr, he⟩ := List.mem_map.mp hc
    have := flattenFold_coherent dl _ [] res2 hfold
      (fun kr h => absurd h (List.not_mem_nil kr)) kr hkr
    rw [he] at this
    exact ⟨kr.1, (identityOk_eq_some c kr.1).mp this⟩

theorem edgesForEntry_ok_length (reverse : Bool) (r : Revision) (entry : Option String)
    (cs : List Revision) (hr : ∃ kr, Revision.identity r = Except.ok kr)
    (hcs : ∀ c ∈ cs, ∃ kc, Revision.identity c = Except.ok kc) :
    ∃ es, edgesForEntry reverse r entry cs = Except.ok es ∧
      es.length = cs.countP (fun c => decide (some c.identifier = entry)) := by
  induction cs with
  | nil => exact ⟨[], rfl, rfl⟩
  | cons c cs2 ih =>
    obtain ⟨es2, hes2, hlen⟩ := ih (fun c2 h2 => hcs c2 (List.mem_cons_of_mem c h2))
    obtain ⟨kr, hkr⟩ := hr
    by_cases hm : some c.identifier = entry
    · obtain ⟨kc, hkc⟩ := hcs c (List.mem_cons_self c cs2)
      refine ⟨(if reverse then (kc, kr) else (kr, kc)) :: es2, ?_, ?_⟩
      · unfold edgesForEntry
        rw [if_pos hm, hkr, hkc, hes2]
        rfl
      · simp [List.countP_cons, hlen, hm]
    · refine ⟨es2, ?_, ?_⟩
      · unfold edgesForEntry
        rw [if_neg hm]
        exact hes2
      · simp [List.countP_cons, hlen, hm]

/-- C3.  For a non-initial flattened revision and an entry of its
down_revision tuple, the inner candidate scan emits exactly one edge per
flattened revision whose identifier equals the entry: zero matches give the
empty edge list and no error (dangling references are tolerated), several
matches give one edge each (multi-edges permitted). -/
theorem edges_per_down_entry (groups : List (List Revision)) (dl : List String)
    (revs : List Revision) (r : Revision) (entry : Option String) (reverse : Bool)
    (hflat : flatten_groups groups dl = Except.ok revs)
    (hr : r ∈ revs) (hni : r.is_initial = false) (hentry : entry ∈ r.down_revision) :
    ∃ es, edgesForEntry reverse r entry revs = Except.ok es ∧
      es.length = revs.countP (fun c => decide (some c.identifier = entry)) := by
  have hids := flatten_groups_ok_identity groups dl revs hflat
  exact edgesForEntry_ok_length reverse r entry revs (hids r hr) hids

/-- C3 witness: a revision with a dangling down_revision entry, which yields
zero edges and no error. -/
theorem edges_per_down_entry_witness :
    flatten_groups [[⟨"a", [none], "fa", []⟩, ⟨"b", [some "zz"], "fb", []⟩]] [] =
      Except.ok [⟨"a", [none], "fa", []⟩, ⟨"b", [some "zz"], "fb", []⟩] ∧
    (⟨"b", [some "zz"], "fb", []⟩ : Revision) ∈
      [(⟨"a", [none], "fa", []⟩ : Revision), ⟨"b", [some "zz"], "fb", []⟩] ∧
    Revision.is_initial ⟨"b", [some "zz"], "fb", []⟩ = false ∧
    some "zz" ∈ ([some "zz"] : List (Option String)) ∧
    (∃ es, edgesForEntry false ⟨"b", [some "zz"], "fb", []⟩ (some "zz")
        [⟨"a", [none], "fa", []⟩, ⟨"b", [some "zz"], "fb", []⟩] = Except.ok es ∧
      es.length = [(⟨"a", [none], "fa", []⟩ : Revision),
        ⟨"b", [some "zz"], "fb", []⟩].countP
          (fun c => decide (some c.identifier = some "zz"))) :=
  ⟨rfl, by simp, rfl, by simp,
    edges_per_down_entry [[⟨"a", [none], "fa", []⟩, ⟨"b", [some "zz"], "fb", []⟩]] []
      [⟨"a", [none], "fa", []⟩, ⟨"b", [some "zz"], "fb", []⟩]
      ⟨"b", [some "zz"], "fb", []⟩ (some "zz") false rfl (by simp) rfl (by simp)⟩

theorem edgesForEntry_reverse (r : Revision) (entry : Option String) (cs : List Revision) :
    edgesForEntry true r entry cs =
      (edgesForEntry false r entry cs).map (List.map Prod.swap) := by
  induction cs with
  | nil => rfl
  | cons c cs2 ih =>
    simp only [edgesForEntry]
    by_cases hm : some c.identifier = entry
    · rw [if_pos hm, if_pos hm]
      cases hkr : Revision.identity r with
      | error e => cases hkc : Revision.identity c <;> rfl
      | ok kr =>
        cases hkc : Revision.identity c with
        | error e => rfl
        | ok kc =>
          rw [ih]
          cases h2 : edgesForEntry false r entry cs2 <;>
            simp [Except.map, Prod.swap]
    · rw [if_neg hm, if_neg hm]
      exact ih

theorem edgesForEntries_reverse (revisions : List Revision) (r : Revision)
    (entries : List (Option String)) :
    edgesForEntries true revisions r entries =
      (edgesForEntries false revisions r entries).map (List.map Prod.swap) := by
  induction entries with
  | nil => rfl
  | cons entry rest ih =>
    simp only [edgesForEntries]
    rw [edgesForEntry_reverse, ih]
    cases h1 : edgesForEntry false r entry revisions <;>
      cases h2 : edgesForEntries false revisions r rest <;>
        simp [Except.map, List.map_append]

theorem edgesForRevision_reverse (revisions : List Revision) (r : Revision) :
    edgesForRevision true revisions r =
      (edgesForRevision false revisions r).map (List.map Prod.swap) := by
  unfold edgesForRevision
  by_cases hi : r.is_initial = true
  · rw [if_pos hi, if_pos hi]
    rfl
  · rw [if_neg hi, if_neg hi]
    exact edgesForEntries_reverse revisions r r.down_revision

theorem edgesOf_reverse (revisions : List Revision) (rs : List Revision) :
    edgesOf true revisions rs = (edgesOf false revisions rs).map (List.map Prod.swap) := by
  induction rs with
  | nil => rfl
  | cons r rs2 ih =>
    simp only [edgesOf]
    rw [edgesForRevision_reverse, ih]
    cases h1 : edgesForRevision false revisions r <;>
      cases h2 : edgesOf false revisions rs2 <;>
        simp [Except.map, List.map_append]

/-- C6.  With the reverse flag set, every emitted edge has inverted
direction: the edge list of the reversed graph is the swap of the normal
one, pair by pair.  The initial revisions are still anchored at the bottom
of the layout: the reversed graph carries the rankdir BT graph attribute,
the bottom-to-top rank direction under which the tail of each inverted edge,
and so ultimately the initial revisions, stays at the bottom (amgraph.py
lines 108 to 111; the layout itself is the renderer's concern). -/
theorem reverse_inverts_edges (gname : String) (groups : List (List Revision))
    (dl : List String) (s : Bool) (g grev : DotGraph)
    (h1 : create_graph gname groups dl s false = Except.ok g)
    (h2 : create_graph gname groups dl s true = Except.ok grev) :
    grev.edges = g.edges.map Prod.swap ∧ grev.rankdirBT = true ∧ g.rankdirBT = false := by
  unfold create_graph at h1 h2
  split at h1
  · cases h1
  · rename_i revs hf
    split at h1
    · cases h1
    · rename_i nodes hn
      split at h1
      · cases h1
      · rename_i edges he
        cases h1
        split at h2
        · cases h2
        · rename_i revs2 hf2
          rw [hf] at hf2
          injection hf2 with hf3
          subst hf3
          split at h2
          · cases h2
          · rename_i nodes2 hn2
            split at h2
            · rename_i e he2
              rw [edgesOf_reverse, he] at he2
              cases he2
            · rename_i edges2 he2
              rw [edgesOf_reverse, he] at he2
              cases h2
              have he3 : Except.ok (edges.map Prod.swap) = Except.ok edges2 := he2
              injection he3 with he4
              exact ⟨he4.symm, rfl, rfl⟩

/-- C6 witness: a two-revision chain, rendered normally and reversed. -/
theorem reverse_inverts_edges_witness :
    create_graph "g" [[⟨"a", [none], "fa", []⟩, ⟨"b", [some "a"], "fb", []⟩]] [] false false =
      Except.ok ⟨"g", false,
        [⟨("a", [none]), "2", "oval", "fa"⟩, ⟨("b", [some "a"]), "1", "oval", "fb"⟩],
        [(("b", [some "a"]), ("a", [none]))]⟩ ∧
    create_graph "g" [[⟨"a", [none], "fa", []⟩, ⟨"b", [some "a"], "fb", []⟩]] [] false true =
      Except.ok ⟨"g", true,
        [⟨("a", [none]), "2", "oval", "fa"⟩, ⟨("b", [some "a"]), "1", "oval", "fb"⟩],
        [(("a", [none]), ("b", [some "a"]))]⟩ ∧
    ([(("a", [none]), ("b", [some "a"]))] : List (RevKey × RevKey)) =
      [(("b", [some "a"]), ("a", [none]))].map Prod.swap ∧
    (true : Bool) = true ∧ (false : Bool) = false :=
  ⟨rfl, rfl,
    (reverse_inverts_edges "g" [[⟨"a", [none], "fa", []⟩, ⟨"b", [some "a"], "fb", []⟩]] []
      false
      ⟨"g", false,
        [⟨("a", [none]), "2", "oval", "fa"⟩, ⟨("b", [some "a"]), "1", "oval", "fb"⟩],
        [(("b", [some "a"]), ("a", [none]))]⟩
      ⟨"g", true,
        [⟨("a", [none]), "2", "oval", "fa"⟩, ⟨("b", [some "a"]), "1", "oval", "fb"⟩],
        [(("a", [none]), ("b", [some "a"]))]⟩ rfl rfl).1,
    (reverse_inverts_edges "g" [[⟨"a", [none], "fa", []⟩, ⟨"b", [some "a"], "fb", []⟩]] []
      false
      ⟨"g", false,
        [⟨("a", [none]), "2", "oval", "fa"⟩, ⟨("b", [some "a"]), "1", "oval", "fb"⟩],
        [(("b", [some "a"]), ("a", [none]))]⟩
      ⟨"g", true,
        [⟨("a", [none]), "2", "oval", "fa"⟩, ⟨("b", [some "a"]), "1", "oval", "fb"⟩],
        [(("a", [none]), ("b", [some "a"]))]⟩ rfl rfl).2⟩

theorem mainLoad_no_labels (dirs : List VDir) (out : String) (s rev : Bool)
    (hout : (pathSuffix out).isEmpty = false) :
    mainLoad ⟨dirs, [], out, s, rev⟩ = loadDirs dirs := by
  unfold mainLoad
  rw [if_neg (fun h => h.1 rfl)]
  rw [if_neg (fun h => by
    have h2 : (pathSuffix out).isEmpty = true := h
    rw [hout] at h2
    cases h2)]

theorem read_revisions_first_failure (entries : List DirEntry)
    (hbad : ∃ e ∈ entries, eligible e = true ∧ extractionFails e = true) :
    ∃ f err,
      entries.find? (fun e => eligible e && extractionFails e) = some f ∧
      from_ast_node f.stmts f.name = Except.error err ∧
      read_revisions entries = Except.error (readFileDiag f.name err) := by
  induction entries with
  | nil =>
    obtain ⟨e, he, _⟩ := hbad
    exact absurd he (List.not_mem_nil e)
  | cons e0 rest ih =>
    by_cases hp : (eligible e0 && extractionFails e0) = true
    · have hp2 : eligible e0 = true ∧ extractionFails e0 = true := by simpa using hp
      have helig : eligible e0 = true := hp2.1
      have hfail : extractionFails e0 = true := hp2.2
      cases hex : from_ast_node e0.stmts e0.name with
      | ok r0 =>
        exfalso
        unfold extractionFails at hfail
        rw [hex] at hfail
        cases hfail
      | error err =>
        refine ⟨e0, err, List.find?_cons_of_pos rest hp, hex, ?_⟩
        unfold read_revisions
        rw [if_pos helig, hex]
    · have hbad2 : ∃ e ∈ rest, eligible e = true ∧ extractionFails e = true := by
        obtain ⟨e, he, h1, h2⟩ := hbad
        rcases List.mem_cons.mp he with h3 | h3
        · exact absurd (by simp [← h3, h1, h2]) hp
        · exact ⟨e, h3, h1, h2⟩
      obtain ⟨f, err, hfind, hfa, hread⟩ := ih hbad2
      refine ⟨f, err, ?_, hfa, ?_⟩
      · rw [List.find?_cons_of_neg rest hp]
        exact hfind
      · unfold read_revisions
        by_cases helig : eligible e0 = true
        · have hok : extractionFails e0 = false := by
            cases h : extractionFails e0 with
            | false => rfl
            | true => exact absurd (by simp [helig, h]) hp
          cases hex : from_ast_node e0.stmts e0.name with
          | error err2 =>
            exfalso
            unfold extractionFails at hok
            rw [hex] at hok
            cases hok
          | ok r0 =>
            rw [if_pos helig, hread]
            rfl
        · rw [if_neg helig]
          exact hread

/-- C5.  A directory containing an eligible migration file that lacks a
truthy revision declaration aborts the run at the first failing eligible
file: read_revisions stops with the print_err diagnostic naming that file
(a line on stderr followed by exit(1)), never returns a revision list, and
a full main invocation over the directory stops with that same diagnostic,
so no revision of the run, well-formed ones included, reaches any output. -/
theorem failfast_on_bad_file (entries : List DirEntry)
    (hbad : ∃ e ∈ entries, eligible e = true ∧
      from_ast_node e.stmts e.name =
        Except.error (ExtractErr.valueError "Unable to find revision identifier.")) :
    ∃ f err,
      entries.find? (fun e => eligible e && extractionFails e) = some f ∧
      from_ast_node f.stmts f.name = Except.error err ∧
      read_revisions entries = Except.error (readFileDiag f.name err) ∧
      (∀ revs, read_revisions entries ≠ Except.ok revs) ∧
      (∀ s rev, mainLoad ⟨[⟨true, entries⟩], [], "output.png", s, rev⟩ =
        Except.error (MainStop.errExitLine (readFileDiag f.name err))) := by
  have hbad2 : ∃ e ∈ entries, eligible e = true ∧ extractionFails e = true := by
    obtain ⟨e, he, h1, h2⟩ := hbad
    refine ⟨e, he, h1, ?_⟩
    unfold extractionFails
    rw [h2]
  obtain ⟨f, err, hfind, hfa, hread⟩ := read_revisions_first_failure entries hbad2
  refine ⟨f, err, hfind, hfa, hread, ?_, ?_⟩
  · intro revs hok
    rw [hread] at hok
    cases hok
  · intro s rev
    rw [mainLoad_no_labels [⟨true, entries⟩] "output.png" s rev rfl]
    have h2 : loadDirs [⟨true, entries⟩] =
        (match read_revisions entries with
         | Except.error line => Except.error (MainStop.errExitLine line)
         | Except.ok revs => (loadDirs ([] : List VDir)).map (fun gs => revs :: gs)) := rfl
    rw [h2, hread]

/-- C5 witness: one well-formed file and one file missing the revision
declaration; the run aborts naming the bad file. -/
theorem failfast_on_bad_file_witness :
    (∃ e ∈ [(⟨"ok.py", true,
        [PyStmt.assign [PyTarget.name "revision"] (PyExpr.lit (PyVal.str "a"))]⟩ : DirEntry),
      ⟨"bad.py", true, [PyStmt.assign [PyTarget.name "x"] (PyExpr.lit (PyVal.str "y"))]⟩],
      eligible e = true ∧
      from_ast_node e.stmts e.name =
        Except.error (ExtractErr.valueError "Unable to find revision identifier.")) ∧
    (∃ f err,
      ([(⟨"ok.py", true,
          [PyStmt.assign [PyTarget.name "revision"] (PyExpr.lit (PyVal.str "a"))]⟩ : DirEntry),
        ⟨"bad.py", true,
          [PyStmt.assign [PyTarget.name "x"] (PyExpr.lit (PyVal.str "y"))]⟩].find?
        (fun e => eligible e && extractionFails e)) = some f ∧
      from_ast_node f.stmts f.name = Except.error err ∧
      read_revisions [⟨"ok.py", true,
          [PyStmt.assign [PyTarget.name "revision"] (PyExpr.lit (PyVal.str "a"))]⟩,
        ⟨"bad.py", true, [PyStmt.assign [PyTarget.name "x"] (PyExpr.lit (PyVal.str "y"))]⟩] =
        Except.error (readFileDiag f.name err) ∧
      (∀ revs, read_revisions [⟨"ok.py", true,
          [PyStmt.assign [PyTarget.name "revision"] (PyExpr.lit (PyVal.str "a"))]⟩,
        ⟨"bad.py", true, [PyStmt.assign [PyTarget.name "x"] (PyExpr.lit (PyVal.str "y"))]⟩] ≠
        Except.ok revs) ∧
      (∀ s rev, mainLoad ⟨[⟨true, [⟨"ok.py", true,
          [PyStmt.assign [PyTarget.name "revision"] (PyExpr.lit (PyVal.str "a"))]⟩,
        ⟨"bad.py", true,
          [PyStmt.assign [PyTarget.name "x"] (PyExpr.lit (PyVal.str "y"))]⟩]⟩],
          [], "output.png", s, rev⟩ =
        Except.error (MainStop.errExitLine (readFileDiag f.name err)))) :=
  ⟨⟨⟨"bad.py", true, [PyStmt.assign [PyTarget.name "x"] (PyExpr.lit (PyVal.str "y"))]⟩,
      List.Mem.tail _ (List.Mem.head _), rfl, rfl⟩,
    failfast_on_bad_file _
      ⟨⟨"bad.py", true, [PyStmt.assign [PyTarget.name "x"] (PyExpr.lit (PyVal.str "y"))]⟩,
        List.Mem.tail _ (List.Mem.head _), rfl, rfl⟩⟩

theorem appendLabelAt_fst (k0 : RevKey) (lab : String) (kr : RevKey × Revision) :
    (if kr.1 = k0 then (kr.1, pushLabels kr.2 [lab]) else kr).1 = kr.1 := by
  by_cases h : kr.1 = k0 <;> simp [h]

theorem keyFind_appendLabelAt (res : List (RevKey × Revision)) (k0 k : RevKey) (lab : String) :
    keyFind (appendLabelAt res k0 lab) k =
      (keyFind res k).map
        (fun kr => if kr.1 = k0 then (kr.1, pushLabels kr.2 [lab]) else kr) := by
  unfold keyFind appendLabelAt
  rw [List.find?_map]
  have hp : ((fun kr : RevKey × Revision => decide (kr.1 = k)) ∘
      (fun kr : RevKey × Revision =>
        if kr.1 = k0 then (kr.1, pushLabels kr.2 [lab]) else kr)) =
      fun kr : RevKey × Revision => decide (kr.1 = k) := by
    funext kr
    simp [Function.comp, appendLabelAt_fst]
  rw [hp]

theorem keyFind_insertRevision (res : List (RevKey × Revision)) (k0 k : RevKey)
    (r : Revision) :
    keyFind (insertRevision res k0 r) k =
      (match keyFind res k with
       | some kv => some kv
       | none => if k0 = k then some (k0, r) else none) := by
  unfold insertRevision
  by_cases hany : res.any (fun kr => decide (kr.1 = k0)) = true
  · rw [if_pos hany]
    cases hkf : keyFind res k with
    | some kv => rfl
    | none =>
      by_cases hk : k0 = k
      · exfalso
        obtain ⟨kr, hkr, hp⟩ := List.any_eq_true.mp hany
        unfold keyFind at hkf
        rw [List.find?_eq_none] at hkf
        have h1 : kr.1 = k0 := of_decide_eq_true hp
        exact hkf kr hkr (by simp [h1, hk])
      · simp [hk]
  · rw [if_neg hany]
    unfold keyFind
    rw [List.find?_append]
    cases hkf : List.find? (fun kr : RevKey × Revision => decide (kr.1 = k)) res with
    | some kv => rfl
    | none =>
      by_cases hk : k0 = k
      · rw [List.find?_cons_of_pos _ (by simp [hk])]
        simp [Option.or, hk]
      · rw [List.find?_cons_of_neg _ (by simp [hk])]
        simp [Option.or, hk]

theorem contrib_nil (dl : List String) (k : RevKey) : contrib dl [] k = [] := rfl

theorem contrib_cons (dl : List String) (p : Nat × Revision) (ps : List (Nat × Revision))
    (k : RevKey) :
    contrib dl (p :: ps) k =
      (if identityOk p.2 = some k then labelOfIdx dl p.1 else []) ++ contrib dl ps k := by
  unfold contrib
  rw [List.flatMap_cons]

theorem flattenFold_keyFind (dl : List String) (pairs : List (Nat × Revision))
    (res0 res1 : List (RevKey × Revision)) (k : RevKey)
    (h : flattenFold dl res0 pairs = Except.ok res1) :
    keyFind res1 k =
      (match keyFind res0 k with
       | some kv => some (kv.1, pushLabels kv.2 (contrib dl pairs k))
       | none =>
         match pairs.find? (fun ir => decide (identityOk ir.2 = some k)) with
         | some ir => some (k, pushLabels ir.2 (contrib dl pairs k))
         | none => none) := by
  induction pairs generalizing res0 with
  | nil =>
    unfold flattenFold at h
    injection h with h2
    subst h2
    cases hkf : keyFind res0 k with
    | none => rfl
    | some kv => simp [contrib_nil, pushLabels_nil]
  | cons p ps ih =>
    unfold flattenFold at h
    cases hstep : flattenStep dl res0 p with
    | error e => rw [hstep] at h; cases h
    | ok res2 =>
      rw [hstep] at h
      obtain ⟨kp, hid, hcase⟩ := flattenStep_ok dl res0 res2 p hstep
      have hidOk : identityOk p.2 = some kp := (identityOk_eq_some p.2 kp).mpr hid
      rw [ih res2 h]
      simp only [contrib_cons]
      rcases hcase with ⟨hemp, hres⟩ | ⟨hemp, lab, hl, hres⟩
      · subst hres
        have hl0 : labelOfIdx dl p.1 = [] := by simp [labelOfIdx, hemp]
        rw [keyFind_insertRevision]
        cases hkf : keyFind res0 k with
        | some kv => simp [hl0, pushLabels_nil]
        | none =>
          by_cases hkk : kp = k
          · subst hkk
            rw [if_pos rfl]
            rw [List.find?_cons_of_pos _ (by simp [hidOk])]
            simp [hl0, pushLabels_nil, hidOk]
          · rw [if_neg hkk]
            rw [List.find?_cons_of_neg _ (by simp [hidOk, hkk])]
            cases hpf : ps.find? (fun ir => decide (identityOk ir.2 = some k)) with
            | some ir => simp [hl0, hidOk, hkk]
            | none => rfl
      · subst hres
        have hl0 : labelOfIdx dl p.1 = [lab] := by simp [labelOfIdx, hemp, hl]
        rw [keyFind_appendLabelAt, keyFind_insertRevision]
        cases hkf : keyFind res0 k with
        | some kv =>
          have hkf2 : List.find? (fun kr : RevKey × Revision => decide (kr.1 = k)) res0 =
              some kv := hkf
          have hkv1 : kv.1 = k := by
            have h3 := List.find?_some hkf2
            simpa using h3
          by_cases hkk : kp = k
          · subst hkk
            simp [hl0, hkv1, hidOk, pushLabels_pushLabels]
          · have hkv2 : ¬ kv.1 = kp := by
              rw [hkv1]
              exact fun h2 => hkk h2.symm
            simp [hl0, hkv2, hidOk, hkk]
        | none =>
          by_cases hkk : kp = k
          · subst hkk
            rw [if_pos rfl]
            rw [List.find?_cons_of_pos _ (by simp [hidOk])]
            simp [hl0, hidOk, pushLabels_pushLabels]
          · rw [if_neg hkk]
            rw [List.find?_cons_of_neg _ (by simp [hidOk, hkk])]
            cases hpf : ps.find? (fun ir => decide (identityOk ir.2 = some k)) with
            | some ir => simp [hl0, hidOk, hkk]
            | none => rfl

theorem keys_appendLabelAt (res : List (RevKey × Revision)) (k : RevKey) (lab : String) :
    (appendLabelAt res k lab).map (fun kr => kr.1) = res.map (fun kr => kr.1) := by
  unfold appendLabelAt
  rw [List.map_map]
  have hp : ((fun kr : RevKey × Revision => kr.1) ∘
      (fun kr : RevKey × Revision =>
        if kr.1 = k then (kr.1, pushLabels kr.2 [lab]) else kr)) =
      fun kr : RevKey × Revision => kr.1 := by
    funext kr
    simp [Function.comp, appendLabelAt_fst]
  rw [hp]

theorem flattenFold_nodupKeys (dl : List String) (pairs : List (Nat × Revision))
    (res0 res1 : List (RevKey × Revision))
    (h : flattenFold dl res0 pairs = Except.ok res1)
    (h0 : (res0.map (fun kr => kr.1)).Nodup) :
    (res1.map (fun kr => kr.1)).Nodup := by
  induction pairs generalizing res0 with
  | nil =>
    unfold flattenFold at h
    injection h with h2
    subst h2
    exact h0
  | cons p ps ih =>
    unfold flattenFold at h
    cases hstep : flattenStep dl res0 p with
    | error e => rw [hstep] at h; cases h
    | ok res2 =>
      rw [hstep] at h
      refine ih res2 h ?_
      obtain ⟨kp, hid, hcase⟩ := flattenStep_ok dl res0 res2 p hstep
      have hins : ((insertRevision res0 kp p.2).map (fun kr => kr.1)).Nodup := by
        unfold insertRevision
        split
        · exact h0
        · rename_i hany
          rw [List.map_append, List.nodup_append]
          refine ⟨h0, List.nodup_singleton _, ?_⟩
          intro x hx hx2
          simp at hx2
          subst hx2
          obtain ⟨kr, hkr, hfst⟩ := List.mem_map.mp hx
          exact hany (List.any_eq_true.mpr ⟨kr, hkr, by simp [hfst]⟩)
      rcases hcase with ⟨_, hres⟩ | ⟨_, lab, _, hres⟩
      · subst hres
        exact hins
      · subst hres
        rw [keys_appendLabelAt]
        exact hins

theorem countP_key_of_nodup (res : List (RevKey × Revision)) (k : RevKey)
    (hnd : (res.map (fun kr => kr.1)).Nodup) :
    res.countP (fun kr => decide (kr.1 = k)) =
      if (keyFind res k).isSome then 1 else 0 := by
  induction res with
  | nil => rfl
  | cons kr rest ih =>
    rw [List.map_cons, List.nodup_cons] at hnd
    obtain ⟨hnotin, hnd2⟩ := hnd
    rw [List.countP_cons]
    by_cases hk : kr.1 = k
    · have hzero : rest.countP (fun kr2 => decide (kr2.1 = k)) = 0 := by
        rw [List.countP_eq_zero]
        intro a ha hpa
        have h1 : a.1 = k := of_decide_eq_true hpa
        rw [← hk] at h1
        exact hnotin (h1 ▸ List.mem_map_of_mem (fun kr2 => kr2.1) ha)
      rw [hzero]
      unfold keyFind
      rw [List.find?_cons_of_pos _ (by simp [hk])]
      simp [hk]
    · rw [if_neg (by simp [hk])]
      unfold keyFind
      rw [List.find?_cons_of_neg _ (by simp [hk])]
      have := ih hnd2
      unfold keyFind at this
      simpa using this

theorem countP_identity_flatten (res2 : List (RevKey × Revision)) (k : RevKey)
    (hco : ∀ kr ∈ res2, identityOk kr.2 = some kr.1)
    (hnd : (res2.map (fun kr => kr.1)).Nodup) :
    (res2.map (fun kr => kr.2)).countP (fun s => decide (identityOk s = some k)) =
      if (keyFind res2 k).isSome then 1 else 0 := by
  rw [List.countP_map]
  have hcong : ∀ kr ∈ res2,
      ((fun s => decide (identityOk s = some k)) ∘
        (fun kr : RevKey × Revision => kr.2)) kr = true ↔
      (fun kr : RevKey × Revision => decide (kr.1 = k)) kr = true := by
    intro kr hkr
    simp [Function.comp, hco kr hkr]
  rw [List.countP_congr hcong]
  exact countP_key_of_nodup res2 k hnd

theorem revisionStreamFrom_map_snd (n : Nat) (groups : List (List Revision)) :
    (revisionStreamFrom n groups).map (fun ir => ir.2) = groups.flatten := by
  induction groups generalizing n with
  | nil => rfl
  | cons g gs ih =>
    unfold revisionStreamFrom
    rw [List.flatten_cons, List.map_append, ih (n + 1)]
    congr 1
    rw [List.map_map]
    simp [Function.comp]

/-- C1 counterexample.  One group, labelled g, containing two records with
the same identity.  The only group containing the identity is that group, so
the union of the labels of the containing groups, in group order, is the
one-element list g; but flatten_groups appends the group label once per
record occurrence, so the kept record carries g twice. -/
theorem flatten_label_per_occurrence_cex :
    flatten_groups [[⟨"a", [none], "f1", []⟩, ⟨"a", [none], "f1", []⟩]] ["g"] =
      Except.ok [⟨"a", [none], "f1", ["g", "g"]⟩] ∧
    (["g", "g"] : List String) ≠ ["g"] :=
  ⟨rfl, by simp⟩

/-- C1 as amended.  Flattening deduplicates by the composite identity key:
whenever the flattening succeeds and r0 is the first record (scanning groups
in order) whose identity key is k, the flattened result contains exactly one
record with key k, and that record is r0 itself, kept with its original
attributes, with its label list extended by one copy of the enclosing group
label per record occurrence of the key, in stream order (contrib).  When
each group contains at most one record per identity this is exactly the
union of the labels of the containing groups, in group order. -/
theorem flatten_dedup_first_seen (groups : List (List Revision)) (dl : List String)
    (res : List Revision) (k : RevKey) (r0 : Revision)
    (hok : flatten_groups groups dl = Except.ok res)
    (hfirst : groups.flatten.find? (fun r => decide (identityOk r = some k)) = some r0) :
    res.countP (fun s => decide (identityOk s = some k)) = 1 ∧
    pushLabels r0 (contrib dl (revisionStream groups) k) ∈ res := by
  unfold flatten_groups at hok
  cases hfold : flattenFold dl [] (revisionStream groups) with
  | error e => rw [hfold] at hok; cases hok
  | ok res2 =>
    rw [hfold] at hok
    injection hok with hok2
    subst hok2
    rw [← revisionStreamFrom_map_snd 0 groups, List.find?_map] at hfirst
    cases hsf : (revisionStreamFrom 0 groups).find?
        ((fun r => decide (identityOk r = some k)) ∘ (fun ir : Nat × Revision => ir.2)) with
    | none =>
      rw [hsf] at hfirst
      cases hfirst
    | some ir =>
      rw [hsf] at hfirst
      injection hfirst with hfirst2
      have hchar := flattenFold_keyFind dl (revisionStreamFrom 0 groups) [] res2 k hfold
      have hsf2 : (revisionStreamFrom 0 groups).find?
          (fun ir : Nat × Revision => decide (identityOk ir.2 = some k)) = some ir := hsf
      rw [hsf2] at hchar
      have hchar2 : keyFind res2 k =
          some (k, pushLabels ir.2 (contrib dl (revisionStream groups) k)) := hchar
      have hco := flattenFold_coherent dl (revisionStream groups) [] res2 hfold
        (fun kr hkr => absurd hkr (List.not_mem_nil kr))
      have hnd := flattenFold_nodupKeys dl (revisionStream groups) [] res2 hfold (by simp)
      constructor
      · rw [countP_identity_flatten res2 k hco hnd, hchar2]
        rfl
      · have hfirst3 : ir.2 = r0 := hfirst2
        rw [hfirst3] at hchar2
        have hmem : (k, pushLabels r0 (contrib dl (revisionStream groups) k)) ∈ res2 :=
          List.mem_of_find?_eq_some hchar2
        exact List.mem_map_of_mem (fun kr : RevKey × Revision => kr.2) hmem

/-- C1 witness: the same revision identity in two groups labelled g1 and g2;
the first-seen record from the first group is kept, with labels g1, g2. -/
theorem flatten_dedup_first_seen_witness :
    flatten_groups [[⟨"a", [none], "f1", []⟩], [⟨"a", [none], "f2", []⟩]] ["g1", "g2"] =
      Except.ok [⟨"a", [none], "f1", ["g1", "g2"]⟩] ∧
    ([[⟨"a", [none], "f1", []⟩], [⟨"a", [none], "f2", []⟩]] :
        List (List Revision)).flatten.find?
      (fun r => decide (identityOk r = some ("a", [none]))) =
        some ⟨"a", [none], "f1", []⟩ ∧
    ([(⟨"a", [none], "f1", ["g1", "g2"]⟩ : Revision)].countP
      (fun s => decide (identityOk s = some ("a", [none]))) = 1 ∧
    pushLabels ⟨"a", [none], "f1", []⟩
      (contrib ["g1", "g2"]
        (revisionStream [[⟨"a", [none], "f1", []⟩], [⟨"a", [none], "f2", []⟩]])
        ("a", [none])) ∈ [(⟨"a", [none], "f1", ["g1", "g2"]⟩ : Revision)]) :=
  ⟨rfl, rfl,
    flatten_dedup_first_seen [[⟨"a", [none], "f1", []⟩], [⟨"a", [none], "f2", []⟩]]
      ["g1", "g2"] [⟨"a", [none], "f1", ["g1", "g2"]⟩] ("a", [none])
      ⟨"a", [none], "f1", []⟩ rfl rfl⟩
